import Mathlib

/-!
Verification of the intra-cell point-packing core of the riskMatrix Power BI
visual (`src/riskMatrix/src/visual.ts`, first document, and
`src/riskMatrix/src/hexgridalgorithm.ts`).

The geometry is embedded over `ℚ`.  JavaScript `Math.max/min/floor/ceil` become
`max`/`min`/`Int.floor`/`Int.ceil` on rationals; `Math.ceil(Math.sqrt(n))` on a
natural bucket size is embedded exactly as `jsCeilSqrt`.  The hexagonal
strategy's vertical pitch `Math.sqrt(3)*radius + gapX*0.35` is irrational, so
`hexPositions` takes the two pitches as parameters, exactly the four values the
source closure captures (`usableW`, `usableH`, `pitchX`, `pitchY`).
-/

/-- `RADIUS_FACTOR = 0.10` from visual.ts line 28. -/
def RADIUS_FACTOR : ℚ := 1 / 10

/-- `GAP_FACTOR = 0.3` from visual.ts line 29. -/
def GAP_FACTOR : ℚ := 3 / 10

/-- `INNER_PAD_FR = 2` from visual.ts line 30. -/
def INNER_PAD_FR : ℚ := 2

/-- `cellW = Math.max(1, x.bandwidth())` (visual.ts line 284); the argument is
the raw band width handed to the packer. -/
def cellW (w : ℚ) : ℚ := max 1 w

/-- `cellH = Math.max(1, y.bandwidth())` (visual.ts line 285). -/
def cellH (h : ℚ) : ℚ := max 1 h

/-- `radius = Math.max(4, Math.min(cellW, cellH) * RADIUS_FACTOR)` (line 288). -/
def radius (w h : ℚ) : ℚ := max 4 (min (cellW w) (cellH h) * RADIUS_FACTOR)

/-- `gap = Math.max(2, radius * GAP_FACTOR)` (line 291). -/
def gap (w h : ℚ) : ℚ := max 2 (radius w h * GAP_FACTOR)

/-- `innerPadX = innerPadY = Math.max(2, radius * INNER_PAD_FR)` (lines 296-297). -/
def innerPad (w h : ℚ) : ℚ := max 2 (radius w h * INNER_PAD_FR)

/-- `usableW = Math.max(0, cellW - innerPadX * 2)` (line 300). -/
def usableW (w h : ℚ) : ℚ := max 0 (cellW w - 2 * innerPad w h)

/-- `usableH = Math.max(0, cellH - innerPadY * 2)` (line 301). -/
def usableH (w h : ℚ) : ℚ := max 0 (cellH h - 2 * innerPad w h)

/-- `hardCols = Math.max(1, Math.floor(usableW / (radius * 2)))` (line 311). -/
def hardCols (w h : ℚ) : ℕ := max 1 (⌊usableW w h / (2 * radius w h)⌋.toNat)

/-- `hardRows = Math.max(1, Math.floor(usableH / (radius * 2)))` (line 312). -/
def hardRows (w h : ℚ) : ℕ := max 1 (⌊usableH w h / (2 * radius w h)⌋.toNat)

/-- `Math.ceil(Math.sqrt(n))` for a natural `n`, computed exactly. -/
def jsCeilSqrt (n : ℕ) : ℕ :=
  if Nat.sqrt n * Nat.sqrt n = n then Nat.sqrt n else Nat.sqrt n + 1

/-- `maxColsTry = Math.max(1, Math.min(hardCols, Math.ceil(Math.sqrt(n)) + 6))`
(line 316). -/
def maxColsTry (w h : ℚ) (n : ℕ) : ℕ :=
  max 1 (min (hardCols w h) (jsCeilSqrt n + 6))

/-- `rows = Math.max(1, Math.ceil(n / cols))` (line 318). -/
def rowsFor (n c : ℕ) : ℕ := max 1 (⌈(n : ℚ) / (c : ℚ)⌉.toNat)

/-- `count > 1 ? span / (count - 1) : span` — the achievable center-to-center
pitch when distributing `count` markers across `span` (lines 323-324, 343-344). -/
def axisPitch (span : ℚ) (count : ℕ) : ℚ :=
  if count ≤ 1 then span else span / ((count : ℚ) - 1)

/-- One surviving grid candidate `{cols, rows, pitch}` (line 315). -/
structure Cand where
  cols : ℕ
  rows : ℕ
  pitch : ℚ
  deriving DecidableEq, Repr

/-- One iteration of the candidate search loop (visual.ts lines 317-331) at
loop index `k` (so `cols = k + 1`): derive `rows`, skip if `rows > hardRows`,
skip if either achievable axis pitch is below two radii, otherwise record the
candidate with its minimum axis pitch. -/
def candAt (w h : ℚ) (n k : ℕ) : Option Cand :=
  if hardRows w h < rowsFor n (k + 1) then none
  else if axisPitch (usableW w h) (k + 1) < 2 * radius w h ∨
          axisPitch (usableH w h) (rowsFor n (k + 1)) < 2 * radius w h then none
  else some ⟨k + 1, rowsFor n (k + 1),
    min (axisPitch (usableW w h) (k + 1))
        (axisPitch (usableH w h) (rowsFor n (k + 1)))⟩

/-- The surviving candidates of the search loop of `bestGrid` (visual.ts lines
315-331), for `cols` from 1 to `maxColsTry`, in ascending column order. -/
def candidates (w h : ℚ) (n : ℕ) : List Cand :=
  (List.range (maxColsTry w h n)).filterMap (candAt w h n)

/-- The selection `candidates.sort((a, b) => b.pitch - a.pitch); candidates[0]`
(lines 339-340): JavaScript's sort is stable, so the chosen candidate is the
first one attaining the maximal pitch.  `pickBest` keeps the accumulator unless
a strictly larger pitch appears, which selects exactly that element. -/
def pickBest (b : Cand) : List Cand → Cand
  | [] => b
  | c :: t => pickBest (if b.pitch < c.pitch then c else b) t

/-- The candidate `bestGrid` picks, when any survives. -/
def bestCand (w h : ℚ) (n : ℕ) : Option Cand :=
  match candidates w h n with
  | [] => none
  | c :: t => some (pickBest c t)

/-- The `(cols, rows, effPitchX, effPitchY)` record `bestGrid` returns. -/
structure GridFit where
  cols : ℕ
  rows : ℕ
  pitchX : ℚ
  pitchY : ℚ
  deriving DecidableEq, Repr

/-- `bestGrid(n)` (visual.ts lines 303-347): either the first maximal surviving
candidate with its effective pitches, or the degraded fallback
`{cols: 1, rows: Math.max(1, n), pitchX: 2*radius, pitchY: 2*radius}` (line 335). -/
def bestGrid (w h : ℚ) (n : ℕ) : GridFit :=
  match bestCand w h n with
  | none => ⟨1, max 1 n, 2 * radius w h, 2 * radius w h⟩
  | some b => ⟨b.cols, b.rows, axisPitch (usableW w h) b.cols,
               axisPitch (usableH w h) b.rows⟩

/-- `positionsFor(n, cols, rows, effPitchX, effPitchY)` (visual.ts lines
349-362): row-major placement `r = Math.floor(i / cols) % rows`, `c = i % cols`,
centered via `cx0 = -(cols-1)*pX/2`, `cy0 = -(rows-1)*pY/2`. -/
def positionsFor (n cols rows : ℕ) (pX pY : ℚ) : List (ℚ × ℚ) :=
  (List.range n).map (fun i =>
    (-(((cols : ℚ) - 1) * pX) / 2 + ((i % cols : ℕ) : ℚ) * pX,
     -(((rows : ℚ) - 1) * pY) / 2 + ((i / cols % rows : ℕ) : ℚ) * pY))

/-- The offsets the grid strategy produces for a bucket of `n` items in a cell
of band size `w × h`: `positionsFor(n, best.cols, best.rows, best.pitchX,
best.pitchY)` (line 376). -/
def gridOffsets (w h : ℚ) (n : ℕ) : List (ℚ × ℚ) :=
  positionsFor n (bestGrid w h n).cols (bestGrid w h n).rows
    (bestGrid w h n).pitchX (bestGrid w h n).pitchY

/-- Squared Euclidean distance between two offsets. -/
def sqDist (p q : ℚ × ℚ) : ℚ := (p.1 - q.1) ^ 2 + (p.2 - q.2) ^ 2

/-! ### Hexagonal close-packing strategy (`hexgridalgorithm.ts`) -/

/-- `HEX_RADIUS_FACTOR = 0.095` (hexgridalgorithm.ts line 2). -/
def HEX_RADIUS_FACTOR : ℚ := 19 / 200

/-- `HEX_GAP_FACTOR = 0.70` (line 3). -/
def HEX_GAP_FACTOR : ℚ := 7 / 10

/-- `HEX_INNER_PAD_FR = 0.75` (line 4). -/
def HEX_INNER_PAD_FR : ℚ := 3 / 4

/-- `radius = Math.max(4, Math.min(cellW, cellH) * HEX_RADIUS_FACTOR)` (line 17). -/
def hexRadius (w h : ℚ) : ℚ := max 4 (min (cellW w) (cellH h) * HEX_RADIUS_FACTOR)

/-- `gapX = Math.max(2, radius * HEX_GAP_FACTOR)` (line 18). -/
def hexGapX (w h : ℚ) : ℚ := max 2 (hexRadius w h * HEX_GAP_FACTOR)

/-- `pitchX = (radius * 2) + gapX` (line 19). -/
def hexPitchX (w h : ℚ) : ℚ := 2 * hexRadius w h + hexGapX w h

/-- `padX = padY = Math.max(2, radius * HEX_INNER_PAD_FR)` (lines 23-24). -/
def hexPad (w h : ℚ) : ℚ := max 2 (hexRadius w h * HEX_INNER_PAD_FR)

/-- `usableW = Math.max(0, cellW - padX * 2)` (line 26). -/
def hexUsableW (w h : ℚ) : ℚ := max 0 (cellW w - 2 * hexPad w h)

/-- `usableH = Math.max(0, cellH - padY * 2)` (line 27). -/
def hexUsableH (w h : ℚ) : ℚ := max 0 (cellH h - 2 * hexPad w h)

/-- `cols = Math.max(1, Math.floor(usableW / pitchX))` (line 34). -/
def hexCols (uW pX : ℚ) : ℕ := max 1 (⌊uW / pX⌋.toNat)

/-- `rows = Math.max(1, Math.floor(usableH / pitchY))` (line 35). -/
def hexRows (uH pY : ℚ) : ℕ := max 1 (⌊uH / pY⌋.toNat)

/-- `hexPositions(n)` (hexgridalgorithm.ts lines 29-63).  The function closes
over `usableW`, `usableH`, `pitchX`, `pitchY`, taken here as parameters
(`pitchY = Math.sqrt(3)*radius + gapX*0.35` is irrational, so it cannot be a
rational constant of the cell).  For `n ≤ 1` a single `(0,0)` is pushed (note:
also when `n = 0`).  When one column and one row fit, all `n` items get `(0,0)`.
Otherwise the staggered lattice is filled row-major, stopping after `n` items;
the overflow loop `for (; placed < n; placed++) pos.push(pos[placed %
pos.length])` always reads index `placed % pos.length = 0` because `pos.length`
equals `placed` at each iteration, so every overflow item repeats the first
lattice position. -/
def hexPositions (uW uH pX pY : ℚ) (n : ℕ) : List (ℚ × ℚ) :=
  if n ≤ 1 then [(0, 0)]
  else
    let cols := hexCols uW pX
    let rows := hexRows uH pY
    if cols = 1 ∧ rows = 1 then List.replicate n (0, 0)
    else
      let gridW := ((cols : ℚ) - 1) * pX + (if 1 < cols then pX / 2 else 0)
      let gridH := ((rows : ℚ) - 1) * pY
      let lattice := (List.range (rows * cols)).map (fun i =>
        (-gridW / 2 + (if i / cols % 2 = 1 then pX / 2 else 0) +
           ((i % cols : ℕ) : ℚ) * pX,
         -gridH / 2 + ((i / cols : ℕ) : ℚ) * pY))
      let latticeN := lattice.take n
      latticeN ++ List.replicate (n - rows * cols) (latticeN.headD (0, 0))

/-- The hex strategy applied to a cell of band size `w × h`, with the
irrational vertical pitch supplied as the parameter `pY`. -/
def hexFromCell (w h pY : ℚ) (n : ℕ) : List (ℚ × ℚ) :=
  hexPositions (hexUsableW w h) (hexUsableH w h) (hexPitchX w h) pY n

/-! ### Rating extraction (`visual.ts` lines 191-253) -/

/-- A host-supplied rating value: a (finite) number or a string. -/
inductive JSVal where
  | num (q : ℚ)
  | str (s : String)
  deriving DecidableEq

/-- ASCII digit value of a character, if it is a digit. -/
def digitsToNat : List Char → Option ℕ :=
  List.foldl (fun acc c =>
    match acc with
    | none => none
    | some a => if c.isDigit then some (a * 10 + (c.toNat - 48)) else none)
    (some 0)

/-- Split a character list on the decimal point. -/
def splitDot : List Char → List (List Char) :=
  List.foldr (fun c acc =>
    if c = '.' then [] :: acc else (c :: acc.headD []) :: acc.tail) [[]]

/-- Strip leading and trailing whitespace. -/
def trimChars (cs : List Char) : List Char :=
  ((cs.dropWhile Char.isWhitespace).reverse.dropWhile Char.isWhitespace).reverse

/-- Value of an unsigned decimal numeral, `none` when malformed. -/
def decToRat (cs : List Char) : Option ℚ :=
  match splitDot cs with
  | [a] =>
      if a.isEmpty then none
      else (digitsToNat a).map (fun v => (v : ℚ))
  | [a, b] =>
      if a.isEmpty ∧ b.isEmpty then none
      else
        match digitsToNat a, digitsToNat b with
        | some ia, some fb => some ((ia : ℚ) + (fb : ℚ) / (10 ^ b.length))
        | _, _ => none
  | _ => none

/-- The JavaScript `Number(string)` coercion restricted to plain decimal
numerals (optional sign, digits, optional fractional part; the empty/blank
string is 0).  `none` models `NaN`.  Exotic numeral forms (hex, exponent,
`Infinity`) are outside the inputs any claim mentions. -/
def jsStringToNumber (s : String) : Option ℚ :=
  let t := trimChars s.toList
  if t.isEmpty then some 0
  else if t.headD ' ' = '-' then (decToRat t.tail).map (fun q => -q)
  else if t.headD ' ' = '+' then decToRat t.tail
  else decToRat t

/-- `Number(v)` for a rating value; `none` models a non-finite result. -/
def jsNumber : JSVal → Option ℚ
  | .num q => some q
  | .str s => jsStringToNumber s

/-- `clampIndex(v, 1, 5)` (visual.ts lines 191-197): coerce with `Number`,
return `null` when not finite, floor, return `null` outside `1..5`. -/
def clampIndex (v : JSVal) : Option ℤ :=
  match jsNumber v with
  | none => none
  | some q => if ⌊q⌋ < 1 ∨ 5 < ⌊q⌋ then none else some ⌊q⌋

/-- The per-row clamp-and-filter of `extractData` (visual.ts lines 229-253),
restricted to the two rating columns: a row survives exactly when both ratings
clamp successfully. -/
def extractRatings (rows : List (JSVal × JSVal)) : List (ℤ × ℤ) :=
  rows.filterMap (fun rc =>
    match clampIndex rc.1, clampIndex rc.2 with
    | some a, some b => some (a, b)
    | _, _ => none)

/-! ### Grouping and placement (`visual.ts` lines 257-262 and 364-392) -/

/-- One extracted risk row, as consumed by `calculateJitter`. -/
structure Risk where
  consequenceIdx : ℤ
  likelihoodIdx : ℤ
  rowIndex : ℕ
  deriving DecidableEq, Repr

/-- The grouping key `` `${d.consequenceIdx}-${d.likelihoodIdx}` `` modelled as
the index pair (for indices in `1..5` the string key is in bijection with the
pair, and `calculateJitter` parses it back with `split("-")` and `Number`). -/
def riskKey (r : Risk) : ℤ × ℤ := (r.consequenceIdx, r.likelihoodIdx)

/-- First-occurrence-ordered list of distinct keys: the iteration order of the
`Map` built by `d3.group`. -/
def firstKeys {α : Type} [DecidableEq α] : List α → List α
  | [] => []
  | a :: t => a :: (firstKeys t).filter (fun b => decide (b ≠ a))

/-- `d3.group(this.risks, d => key)`: the ordered association list of buckets;
each bucket preserves the input order of its items. -/
def groupsOf (risks : List Risk) : List ((ℤ × ℤ) × List Risk) :=
  (firstKeys (risks.map riskKey)).map
    (fun k => (k, risks.filter (fun r => decide (riskKey r = k))))

/-- `riskConsequenceLevels` (visual.ts line 63). -/
def riskConsequenceLevels : List String :=
  ["Insignificant", "Minor", "Moderate", "Major", "Catastrophic"]

/-- `riskLikelihoodLevels` (visual.ts line 64). -/
def riskLikelihoodLevels : List String :=
  ["Rare", "Unlikely", "Possible", "Likely", "Almost Certain"]

/-- `consequenceLabelFromIndex` (lines 257-259): `levels[key - 1] ?? null`,
where a negative or out-of-range JavaScript array index reads `undefined`. -/
def consequenceLabelFromIndex (key : ℤ) : Option String :=
  if 1 ≤ key then riskConsequenceLevels.get? (key.toNat - 1) else none

/-- `likelihoodLabelFromIndex` (lines 260-262). -/
def likelihoodLabelFromIndex (key : ℤ) : Option String :=
  if 1 ≤ key then riskLikelihoodLevels.get? (key.toNat - 1) else none

/-- A placed risk: the item plus its resolved labels, jitter offset and radius
(the `placed.push({...g, ...})` record of lines 380-387). -/
structure Placed where
  item : Risk
  consequenceLabel : String
  likelihoodLabel : String
  jitterX : ℚ
  jitterY : ℚ
  radiusPx : ℚ
  deriving DecidableEq, Repr

/-- The main loop of `calculateJitter` (visual.ts lines 364-392): for each
bucket in grouping order, resolve the two labels (skipping the bucket when
either is `null`), compute the offsets for the bucket size, and emit one placed
record per item, pairing items with offsets positionally. -/
def calculateJitter (w h : ℚ) (risks : List Risk) : List Placed :=
  (groupsOf risks).flatMap (fun kg =>
    match consequenceLabelFromIndex kg.1.1, likelihoodLabelFromIndex kg.1.2 with
    | some cl, some ll =>
        (kg.2.zip (gridOffsets w h kg.2.length)).map (fun rp =>
          ⟨rp.1, cl, ll, rp.2.1, rp.2.2, radius w h⟩)
    | _, _ => [])

/-! ### Basic geometry facts -/

theorem radius_ge_four (w h : ℚ) : 4 ≤ radius w h := le_max_left _ _

theorem radius_pos (w h : ℚ) : 0 < radius w h :=
  lt_of_lt_of_le (by norm_num) (radius_ge_four w h)

theorem usableW_nonneg (w h : ℚ) : 0 ≤ usableW w h := le_max_left _ _

theorem usableH_nonneg (w h : ℚ) : 0 ≤ usableH w h := le_max_left _ _

theorem innerPad_eq (w h : ℚ) : innerPad w h = 2 * radius w h := by
  have h4 := radius_ge_four w h
  unfold innerPad INNER_PAD_FR
  rw [max_eq_right (by linarith)]
  ring

theorem usableW_eq_of_ge {w h : ℚ} (hup : 2 * radius w h ≤ usableW w h) :
    usableW w h = cellW w - 2 * innerPad w h := by
  have hr := radius_pos w h
  unfold usableW at *
  rcases le_or_lt 0 (cellW w - 2 * innerPad w h) with h0 | h0
  · exact max_eq_right h0
  · rw [max_eq_left (le_of_lt h0)] at hup
    linarith

theorem usableH_eq_of_ge {w h : ℚ} (hup : 2 * radius w h ≤ usableH w h) :
    usableH w h = cellH h - 2 * innerPad w h := by
  have hr := radius_pos w h
  unfold usableH at *
  rcases le_or_lt 0 (cellH h - 2 * innerPad w h) with h0 | h0
  · exact max_eq_right h0
  · rw [max_eq_left (le_of_lt h0)] at hup
    linarith

theorem axisPitch_one (span : ℚ) : axisPitch span 1 = span := by
  unfold axisPitch
  rw [if_pos (le_refl 1)]

theorem axisPitch_le_span {span : ℚ} (hspan : 0 ≤ span) (c : ℕ) :
    axisPitch span c ≤ span := by
  unfold axisPitch
  split
  · exact le_rfl
  · rename_i hc
    have h2 : 2 ≤ c := by omega
    have h2q : (2 : ℚ) ≤ (c : ℚ) := by exact_mod_cast h2
    exact div_le_self hspan (by linarith)

theorem axisPitch_mul_le {span : ℚ} (hspan : 0 ≤ span) {c : ℕ} (hc : 1 ≤ c) :
    ((c : ℚ) - 1) * axisPitch span c ≤ span := by
  unfold axisPitch
  split
  · rename_i h1
    have : c = 1 := le_antisymm h1 hc
    subst this
    norm_num [hspan]
  · rename_i h1
    have h2 : 2 ≤ c := by omega
    have h2q : (2 : ℚ) ≤ (c : ℚ) := by exact_mod_cast h2
    have hne : ((c : ℚ) - 1) ≠ 0 := ne_of_gt (by linarith)
    rw [mul_comm, div_mul_cancel₀ _ hne]

theorem rowsFor_pos (n c : ℕ) : 1 ≤ rowsFor n c := le_max_left _ _

theorem rowsFor_one (c : ℕ) : rowsFor 1 c = 1 := by
  have hle : (1 : ℚ) / (c : ℚ) ≤ 1 := by
    rcases Nat.eq_zero_or_pos c with rfl | hc
    · norm_num
    · have h1 : (1 : ℚ) ≤ (c : ℚ) := by exact_mod_cast hc
      exact div_le_one_of_le₀ h1 (by positivity)
  have h2 : ⌈(1 : ℚ) / (c : ℚ)⌉ ≤ 1 := by
    rw [Int.ceil_le]
    exact_mod_cast hle
  have h3 : (⌈(1 : ℚ) / (c : ℚ)⌉).toNat ≤ 1 := Int.toNat_le.mpr (by exact_mod_cast h2)
  unfold rowsFor
  push_cast
  omega

/-- Row-count times column-count covers the bucket: `cols * rowsFor n cols ≥ n`. -/
theorem rowsFor_mul_ge {n c : ℕ} (hc : 1 ≤ c) : n ≤ c * rowsFor n c := by
  have hcq : (0 : ℚ) < (c : ℚ) := by exact_mod_cast hc
  have hceil : (n : ℚ) / (c : ℚ) ≤ (⌈(n : ℚ) / (c : ℚ)⌉ : ℚ) := Int.le_ceil _
  have hnn : 0 ≤ ⌈(n : ℚ) / (c : ℚ)⌉ := by
    rw [Int.le_ceil_iff]
    push_cast
    have : (0 : ℚ) ≤ (n : ℚ) / (c : ℚ) := by positivity
    linarith
  have htn : ((⌈(n : ℚ) / (c : ℚ)⌉.toNat : ℤ) : ℚ) = (⌈(n : ℚ) / (c : ℚ)⌉ : ℚ) := by
    rw [Int.toNat_of_nonneg hnn]
  have hle : (n : ℚ) ≤ (c : ℚ) * (⌈(n : ℚ) / (c : ℚ)⌉.toNat : ℚ) := by
    have := (div_le_iff₀ hcq).mp hceil
    push_cast at htn ⊢
    nlinarith [this, htn]
  have hnat : n ≤ c * ⌈(n : ℚ) / (c : ℚ)⌉.toNat := by exact_mod_cast hle
  unfold rowsFor
  calc n ≤ c * ⌈(n : ℚ) / (c : ℚ)⌉.toNat := hnat
    _ ≤ c * max 1 ⌈(n : ℚ) / (c : ℚ)⌉.toNat := by
        exact Nat.mul_le_mul_left c (le_max_right _ _)

/-! ### Candidate-search machinery -/

theorem candAt_eq_some {w h : ℚ} {n k : ℕ} {cand : Cand}
    (hc : candAt w h n k = some cand) :
    cand = ⟨k + 1, rowsFor n (k + 1),
      min (axisPitch (usableW w h) (k + 1))
          (axisPitch (usableH w h) (rowsFor n (k + 1)))⟩ ∧
    rowsFor n (k + 1) ≤ hardRows w h ∧
    2 * radius w h ≤ axisPitch (usableW w h) (k + 1) ∧
    2 * radius w h ≤ axisPitch (usableH w h) (rowsFor n (k + 1)) := by
  unfold candAt at hc
  by_cases h1 : hardRows w h < rowsFor n (k + 1)
  · rw [if_pos h1] at hc
    exact absurd hc (by simp)
  · rw [if_neg h1] at hc
    by_cases h2 : axisPitch (usableW w h) (k + 1) < 2 * radius w h ∨
        axisPitch (usableH w h) (rowsFor n (k + 1)) < 2 * radius w h
    · rw [if_pos h2] at hc
      exact absurd hc (by simp)
    · rw [if_neg h2] at hc
      push_neg at h1 h2
      exact ⟨(Option.some_injective _ hc).symm, h1, h2.1, h2.2⟩

theorem candAt_complete {w h : ℚ} {n k : ℕ}
    (h1 : rowsFor n (k + 1) ≤ hardRows w h)
    (h2 : 2 * radius w h ≤ axisPitch (usableW w h) (k + 1))
    (h3 : 2 * radius w h ≤ axisPitch (usableH w h) (rowsFor n (k + 1))) :
    candAt w h n k = some ⟨k + 1, rowsFor n (k + 1),
      min (axisPitch (usableW w h) (k + 1))
          (axisPitch (usableH w h) (rowsFor n (k + 1)))⟩ := by
  unfold candAt
  rw [if_neg (by omega), if_neg (by push_neg; exact ⟨h2, h3⟩)]

theorem candidates_sound {w h : ℚ} {n : ℕ} {cand : Cand}
    (hc : cand ∈ candidates w h n) :
    1 ≤ cand.cols ∧ cand.cols ≤ maxColsTry w h n ∧
    cand.rows = rowsFor n cand.cols ∧
    cand.rows ≤ hardRows w h ∧
    2 * radius w h ≤ axisPitch (usableW w h) cand.cols ∧
    2 * radius w h ≤ axisPitch (usableH w h) cand.rows ∧
    cand.pitch = min (axisPitch (usableW w h) cand.cols)
      (axisPitch (usableH w h) cand.rows) := by
  unfold candidates at hc
  rw [List.mem_filterMap] at hc
  obtain ⟨k, hk, hfk⟩ := hc
  rw [List.mem_range] at hk
  obtain ⟨hcand, hrows, hx, hy⟩ := candAt_eq_some hfk
  subst hcand
  dsimp only
  exact ⟨by omega, by omega, rfl, hrows, hx, hy, rfl⟩

theorem candidates_complete {w h : ℚ} {n : ℕ} {c : ℕ}
    (h1 : 1 ≤ c) (h2 : c ≤ maxColsTry w h n)
    (h3 : rowsFor n c ≤ hardRows w h)
    (h4 : 2 * radius w h ≤ axisPitch (usableW w h) c)
    (h5 : 2 * radius w h ≤ axisPitch (usableH w h) (rowsFor n c)) :
    (⟨c, rowsFor n c,
      min (axisPitch (usableW w h) c)
          (axisPitch (usableH w h) (rowsFor n c))⟩ : Cand) ∈ candidates w h n := by
  obtain ⟨k, rfl⟩ : ∃ k, c = k + 1 := ⟨c - 1, by omega⟩
  unfold candidates
  rw [List.mem_filterMap]
  exact ⟨k, List.mem_range.mpr (by omega), candAt_complete h3 h4 h5⟩

/-- Auxiliary: `filterMap candAt` over a strictly increasing index list yields
candidates with strictly increasing column counts. -/
theorem filterMap_candAt_ascending (w h : ℚ) (n : ℕ) :
    ∀ l : List ℕ, l.Pairwise (· < ·) →
      (l.filterMap (candAt w h n)).Pairwise (fun a b => a.cols < b.cols) := by
  intro l
  induction l with
  | nil => intro _; simp
  | cons a t ih =>
    intro hl
    rw [List.pairwise_cons] at hl
    rw [List.filterMap_cons]
    rcases hfa : candAt w h n a with _ | cand
    · exact ih hl.2
    · rw [List.pairwise_cons]
      refine ⟨?_, ih hl.2⟩
      intro d hd
      rw [List.mem_filterMap] at hd
      obtain ⟨k, hk, hdk⟩ := hd
      have h1 : cand.cols = a + 1 := by rw [(candAt_eq_some hfa).1]
      have h2 : d.cols = k + 1 := by rw [(candAt_eq_some hdk).1]
      have h3 := hl.1 k hk
      omega

theorem candidates_cols_ascending (w h : ℚ) (n : ℕ) :
    (candidates w h n).Pairwise (fun a b => a.cols < b.cols) :=
  filterMap_candAt_ascending w h n _ (List.pairwise_lt_range _)

/-! ### Selection of the best candidate -/

theorem pickBest_cons (b c : Cand) (t : List Cand) :
    pickBest b (c :: t) = pickBest (if b.pitch < c.pitch then c else b) t := rfl

theorem pickBest_ge (l : List Cand) :
    ∀ b : Cand, b.pitch ≤ (pickBest b l).pitch ∧
      ∀ c ∈ l, c.pitch ≤ (pickBest b l).pitch := by
  induction l with
  | nil => intro b; exact ⟨le_rfl, by simp⟩
  | cons c t ih =>
    intro b
    rw [pickBest_cons]
    by_cases hbc : b.pitch < c.pitch
    · rw [if_pos hbc]
      rcases ih c with ⟨h1, h2⟩
      refine ⟨le_of_lt (lt_of_lt_of_le hbc h1), ?_⟩
      intro d hd
      rcases List.mem_cons.mp hd with rfl | hd2
      · exact h1
      · exact h2 d hd2
    · rw [if_neg hbc]
      rcases ih b with ⟨h1, h2⟩
      refine ⟨h1, ?_⟩
      intro d hd
      rcases List.mem_cons.mp hd with rfl | hd2
      · exact le_trans (not_lt.mp hbc) h1
      · exact h2 d hd2

theorem pickBest_mem (l : List Cand) :
    ∀ b : Cand, pickBest b l = b ∨ pickBest b l ∈ l := by
  induction l with
  | nil => intro b; exact Or.inl rfl
  | cons c t ih =>
    intro b
    rw [pickBest_cons]
    by_cases hbc : b.pitch < c.pitch
    · rw [if_pos hbc]
      rcases ih c with hh | hh
      · exact Or.inr (by rw [hh]; exact List.mem_cons_self c t)
      · exact Or.inr (List.mem_cons_of_mem c hh)
    · rw [if_neg hbc]
      rcases ih b with hh | hh
      · exact Or.inl hh
      · exact Or.inr (List.mem_cons_of_mem c hh)

theorem pickBest_eq_self {b : Cand} {l : List Cand}
    (hall : ∀ c ∈ l, c.pitch ≤ b.pitch) : pickBest b l = b := by
  induction l with
  | nil => rfl
  | cons c t ih =>
    rw [pickBest_cons, if_neg (not_lt.mpr (hall c (List.mem_cons_self c t)))]
    exact ih (fun d hd => hall d (List.mem_cons_of_mem c hd))

theorem pickBest_first (l : List Cand) :
    ∀ b : Cand, ∃ pre post, b :: l = pre ++ (pickBest b l) :: post ∧
      ∀ c ∈ pre, c.pitch < (pickBest b l).pitch := by
  induction l with
  | nil => intro b; exact ⟨[], [], rfl, by simp⟩
  | cons c t ih =>
    intro b
    rw [pickBest_cons]
    by_cases hbc : b.pitch < c.pitch
    · rw [if_pos hbc]
      obtain ⟨pre, post, heq, hlt⟩ := ih c
      refine ⟨b :: pre, post, by rw [List.cons_append, ← heq], ?_⟩
      intro d hd
      rcases List.mem_cons.mp hd with rfl | hd2
      · exact lt_of_lt_of_le hbc (pickBest_ge t c).1
      · exact hlt d hd2
    · rw [if_neg hbc]
      obtain ⟨pre, post, heq, hlt⟩ := ih b
      cases pre with
      | nil =>
        rw [List.nil_append] at heq
        have hb : pickBest b t = b := (List.cons_eq_cons.mp heq).1.symm
        exact ⟨[], c :: t, by rw [List.nil_append, hb], by simp⟩
      | cons p pre2 =>
        rw [List.cons_append] at heq
        obtain ⟨hbp, ht⟩ := List.cons_eq_cons.mp heq
        refine ⟨b :: c :: pre2, post, ?_, ?_⟩
        · rw [List.cons_append, List.cons_append, ← ht]
        · intro d hd
          rcases List.mem_cons.mp hd with rfl | hd2
          · exact hbp ▸ hlt p (List.mem_cons_self p pre2)
          · rcases List.mem_cons.mp hd2 with rfl | hd3
            · exact lt_of_le_of_lt (not_lt.mp hbc)
                (hbp ▸ hlt p (List.mem_cons_self p pre2))
            · exact hlt d (List.mem_cons_of_mem p hd3)

theorem bestCand_none_iff {w h : ℚ} {n : ℕ} :
    bestCand w h n = none ↔ candidates w h n = [] := by
  unfold bestCand
  cases candidates w h n with
  | nil => simp
  | cons c t => simp

theorem bestCand_mem {w h : ℚ} {n : ℕ} {best : Cand}
    (hb : bestCand w h n = some best) : best ∈ candidates w h n := by
  unfold bestCand at hb
  rcases hcs : candidates w h n with _ | ⟨c, t⟩
  · rw [hcs] at hb; exact absurd hb (by simp)
  · rw [hcs] at hb
    have hbp : pickBest c t = best := Option.some_injective _ hb
    rcases pickBest_mem t c with h | h
    · rw [← hbp, h]; exact List.mem_cons_self c t
    · rw [← hbp]; exact List.mem_cons_of_mem c h

theorem bestCand_max {w h : ℚ} {n : ℕ} {best : Cand}
    (hb : bestCand w h n = some best) :
    ∀ c ∈ candidates w h n, c.pitch ≤ best.pitch := by
  unfold bestCand at hb
  rcases hcs : candidates w h n with _ | ⟨c, t⟩
  · rw [hcs] at hb; exact absurd hb (by simp)
  · rw [hcs] at hb
    have hbp : pickBest c t = best := Option.some_injective _ hb
    intro d hd
    rcases List.mem_cons.mp hd with rfl | hd
    · exact hbp ▸ (pickBest_ge t d).1
    · exact hbp ▸ (pickBest_ge t c).2 d hd

theorem bestCand_first {w h : ℚ} {n : ℕ} {best : Cand}
    (hb : bestCand w h n = some best) :
    ∃ pre post, candidates w h n = pre ++ best :: post ∧
      ∀ c ∈ pre, c.pitch < best.pitch := by
  unfold bestCand at hb
  rcases hcs : candidates w h n with _ | ⟨c, t⟩
  · rw [hcs] at hb; exact absurd hb (by simp)
  · rw [hcs] at hb
    have hbp : pickBest c t = best := Option.some_injective _ hb
    obtain ⟨pre, post, heq, hlt⟩ := pickBest_first t c
    exact ⟨pre, post, by rw [← hbp, ← heq], fun d hd => hbp ▸ hlt d hd⟩

/-! ### Properties of the chosen grid -/

theorem bestGrid_of_none {w h : ℚ} {n : ℕ} (hb : bestCand w h n = none) :
    bestGrid w h n = ⟨1, max 1 n, 2 * radius w h, 2 * radius w h⟩ := by
  unfold bestGrid
  rw [hb]

theorem bestGrid_of_some {w h : ℚ} {n : ℕ} {b : Cand} (hb : bestCand w h n = some b) :
    bestGrid w h n = ⟨b.cols, b.rows, axisPitch (usableW w h) b.cols,
      axisPitch (usableH w h) b.rows⟩ := by
  unfold bestGrid
  rw [hb]

theorem bestGrid_pitches_ge (w h : ℚ) (n : ℕ) :
    2 * radius w h ≤ (bestGrid w h n).pitchX ∧
    2 * radius w h ≤ (bestGrid w h n).pitchY := by
  rcases hb : bestCand w h n with _ | b
  · rw [bestGrid_of_none hb]
    exact ⟨le_rfl, le_rfl⟩
  · rw [bestGrid_of_some hb]
    obtain ⟨_, _, hrows, _, hx, hy, _⟩ := candidates_sound (bestCand_mem hb)
    exact ⟨hx, hy⟩

theorem bestGrid_cols_pos (w h : ℚ) (n : ℕ) : 1 ≤ (bestGrid w h n).cols := by
  rcases hb : bestCand w h n with _ | b
  · rw [bestGrid_of_none hb]
  · rw [bestGrid_of_some hb]
    exact (candidates_sound (bestCand_mem hb)).1

theorem bestGrid_rows_pos (w h : ℚ) (n : ℕ) : 1 ≤ (bestGrid w h n).rows := by
  rcases hb : bestCand w h n with _ | b
  · rw [bestGrid_of_none hb]
    exact le_max_left _ _
  · rw [bestGrid_of_some hb]
    have hr := (candidates_sound (bestCand_mem hb)).2.2.1
    rw [hr]
    exact rowsFor_pos _ _

/-! ### Lengths and geometry of the produced offset lists -/

theorem positionsFor_length (n cols rows : ℕ) (pX pY : ℚ) :
    (positionsFor n cols rows pX pY).length = n := by
  unfold positionsFor
  rw [List.length_map, List.length_range]

theorem gridOffsets_length (w h : ℚ) (n : ℕ) : (gridOffsets w h n).length = n :=
  positionsFor_length _ _ _ _ _

theorem gridOffsets_zero (w h : ℚ) : gridOffsets w h 0 = [] := by
  have := gridOffsets_length w h 0
  exact List.length_eq_zero.mp this

/-- Coordinates of a marker centered in a span: bounded by half the grid span,
which is at most half the usable span. -/
theorem centered_coord_bound {span P : ℚ} {count idx : ℕ} (hidx : idx < count)
    (hP : 0 ≤ P) (hG : ((count : ℚ) - 1) * P ≤ span) :
    |(-(((count : ℚ) - 1) * P) / 2 + (idx : ℚ) * P)| ≤ span / 2 := by
  have hidxq : (idx : ℚ) ≤ (count : ℚ) - 1 := by
    have hcast : (idx : ℚ) + 1 ≤ (count : ℚ) := by exact_mod_cast hidx
    linarith
  have h0 : (0 : ℚ) ≤ (idx : ℚ) * P := mul_nonneg (Nat.cast_nonneg idx) hP
  have h1 : (idx : ℚ) * P ≤ ((count : ℚ) - 1) * P :=
    mul_le_mul_of_nonneg_right hidxq hP
  rw [abs_le]
  constructor <;> linarith

/-- Core no-overlap bound: any two distinct offsets of `positionsFor` are at
least one pitch apart on some axis, hence at squared distance at least
`(2*rad)^2` whenever both pitches are at least `2*rad`. -/
theorem positionsFor_sep {cols rows : ℕ} {pX pY rad : ℚ}
    (hrad : 0 < rad) (hpX : 2 * rad ≤ pX) (hpY : 2 * rad ≤ pY) (n : ℕ) :
    ∀ p ∈ positionsFor n cols rows pX pY, ∀ q ∈ positionsFor n cols rows pX pY,
      p ≠ q → (2 * rad) ^ 2 ≤ sqDist p q := by
  intro p hp q hq hne
  unfold positionsFor at hp hq
  rw [List.mem_map] at hp hq
  obtain ⟨i, hi, rfl⟩ := hp
  obtain ⟨j, hj, rfl⟩ := hq
  have hner : i % cols ≠ j % cols ∨ i / cols % rows ≠ j / cols % rows := by
    by_contra hcon
    push_neg at hcon
    exact hne (by rw [hcon.1, hcon.2])
  have hsq : sqDist
      (-(((cols : ℚ) - 1) * pX) / 2 + ((i % cols : ℕ) : ℚ) * pX,
       -(((rows : ℚ) - 1) * pY) / 2 + ((i / cols % rows : ℕ) : ℚ) * pY)
      (-(((cols : ℚ) - 1) * pX) / 2 + ((j % cols : ℕ) : ℚ) * pX,
       -(((rows : ℚ) - 1) * pY) / 2 + ((j / cols % rows : ℕ) : ℚ) * pY) =
      (((i % cols : ℕ) : ℚ) - ((j % cols : ℕ) : ℚ)) ^ 2 * pX ^ 2 +
      (((i / cols % rows : ℕ) : ℚ) - ((j / cols % rows : ℕ) : ℚ)) ^ 2 * pY ^ 2 := by
    unfold sqDist
    ring
  rw [hsq]
  have sep_axis : ∀ a b : ℕ, a ≠ b → (1 : ℚ) ≤ ((a : ℚ) - (b : ℚ)) ^ 2 := by
    intro a b hab
    have hz : ((a : ℤ) - (b : ℤ)) ≠ 0 := sub_ne_zero.mpr (by exact_mod_cast hab)
    have h1 : (1 : ℤ) ≤ |(a : ℤ) - (b : ℤ)| := Int.one_le_abs hz
    have h2 : (1 : ℤ) ≤ ((a : ℤ) - (b : ℤ)) ^ 2 := by
      calc (1 : ℤ) = 1 ^ 2 := by norm_num
        _ ≤ |(a : ℤ) - (b : ℤ)| ^ 2 := pow_le_pow_left₀ (by norm_num) h1 2
        _ = ((a : ℤ) - (b : ℤ)) ^ 2 := sq_abs _
    exact_mod_cast h2
  have hpX2 : (2 * rad) ^ 2 ≤ pX ^ 2 := pow_le_pow_left₀ (by positivity) hpX 2
  have hpY2 : (2 * rad) ^ 2 ≤ pY ^ 2 := pow_le_pow_left₀ (by positivity) hpY 2
  rcases hner with hc | hr
  · have h1 := sep_axis _ _ hc
    nlinarith [sq_nonneg (((i / cols % rows : ℕ) : ℚ) - ((j / cols % rows : ℕ) : ℚ)),
      sq_nonneg pY, sq_nonneg pX]
  · have h1 := sep_axis _ _ hr
    nlinarith [sq_nonneg (((i % cols : ℕ) : ℚ) - ((j % cols : ℕ) : ℚ)),
      sq_nonneg pY, sq_nonneg pX]

/-- The grid strategy's pairwise separation floor, fallback included: any two
distinct offsets are at least `2 * radius` apart. -/
theorem gridOffsets_sep (w h : ℚ) (n : ℕ) :
    ∀ p ∈ gridOffsets w h n, ∀ q ∈ gridOffsets w h n,
      p ≠ q → (2 * radius w h) ^ 2 ≤ sqDist p q := by
  have hp := bestGrid_pitches_ge w h n
  exact positionsFor_sep (radius_pos w h) hp.1 hp.2 n

/-- When the search accepts (some candidate survives), both usable spans are at
least `2 * radius`, so the `max 0` clamps are inactive and the inner padding
equals `2 * radius`. -/
theorem usable_ge_of_accepted {w h : ℚ} {n : ℕ} (hne : candidates w h n ≠ []) :
    2 * radius w h ≤ usableW w h ∧ 2 * radius w h ≤ usableH w h := by
  obtain ⟨c0, hc0⟩ := List.exists_mem_of_ne_nil _ hne
  obtain ⟨h1, _, _, _, hx, hy, _⟩ := candidates_sound hc0
  constructor
  · exact le_trans hx (axisPitch_le_span (usableW_nonneg w h) _)
  · exact le_trans hy (axisPitch_le_span (usableH_nonneg w h) _)

/-- In the accepted case every offset's center stays inside the usable
interior, and the full marker (center plus radius) stays inside the cell. -/
theorem gridOffsets_in_bounds {w h : ℚ} {n : ℕ} (hne : candidates w h n ≠ []) :
    ∀ p ∈ gridOffsets w h n,
      |p.1| ≤ usableW w h / 2 ∧ |p.2| ≤ usableH w h / 2 ∧
      |p.1| + radius w h ≤ cellW w / 2 ∧ |p.2| + radius w h ≤ cellH h / 2 := by
  intro p hp
  rcases hb : bestCand w h n with _ | b
  · exact absurd (bestCand_none_iff.mp hb) hne
  obtain ⟨hc1, _, hrows, _, hx, hy, _⟩ := candidates_sound (bestCand_mem hb)
  have hr := radius_pos w h
  have hrq := radius_ge_four w h
  have hgb := bestGrid_of_some hb
  unfold gridOffsets at hp
  rw [hgb] at hp
  unfold positionsFor at hp
  rw [List.mem_map] at hp
  obtain ⟨i, hi, rfl⟩ := hp
  have hPX : (0 : ℚ) ≤ axisPitch (usableW w h) b.cols := le_trans (by linarith) hx
  have hPY : (0 : ℚ) ≤ axisPitch (usableH w h) b.rows := le_trans (by linarith) hy
  have hrowpos : 1 ≤ b.rows := by rw [hrows]; exact rowsFor_pos _ _
  have hcx : |(-(((b.cols : ℚ) - 1) * axisPitch (usableW w h) b.cols) / 2 +
      ((i % b.cols : ℕ) : ℚ) * axisPitch (usableW w h) b.cols)| ≤ usableW w h / 2 :=
    centered_coord_bound (Nat.mod_lt i (by omega)) hPX
      (axisPitch_mul_le (usableW_nonneg w h) hc1)
  have hcy : |(-(((b.rows : ℚ) - 1) * axisPitch (usableH w h) b.rows) / 2 +
      ((i / b.cols % b.rows : ℕ) : ℚ) * axisPitch (usableH w h) b.rows)| ≤ usableH w h / 2 :=
    centered_coord_bound (Nat.mod_lt _ (by omega)) hPY
      (axisPitch_mul_le (usableH_nonneg w h) hrowpos)
  have hu := usable_ge_of_accepted hne
  have huW := usableW_eq_of_ge hu.1
  have huH := usableH_eq_of_ge hu.2
  have hpad := innerPad_eq w h
  refine ⟨hcx, hcy, ?_, ?_⟩
  · have : usableW w h / 2 + radius w h ≤ cellW w / 2 := by
      rw [huW, hpad]; linarith
    calc |_| + radius w h ≤ usableW w h / 2 + radius w h := by linarith [hcx]
      _ ≤ cellW w / 2 := this
  · have : usableH w h / 2 + radius w h ≤ cellH h / 2 := by
      rw [huH, hpad]; linarith
    calc |_| + radius w h ≤ usableH w h / 2 + radius w h := by linarith [hcy]
      _ ≤ cellH h / 2 := this

/-- The degraded fallback lays the bucket out as a single-column stack with
pitch `2 * radius`. -/
theorem gridOffsets_fallback {w h : ℚ} {n : ℕ} (hno : candidates w h n = []) :
    gridOffsets w h n = (List.range n).map
      (fun i : ℕ => ((0 : ℚ),
        ((i : ℚ) - (((max 1 n : ℕ) : ℚ) - 1) / 2) * (2 * radius w h))) := by
  have hb : bestCand w h n = none := by
    rw [bestCand_none_iff]
    exact hno
  unfold gridOffsets
  rw [bestGrid_of_none hb]
  unfold positionsFor
  apply List.map_congr_left
  intro i hi
  rw [List.mem_range] at hi
  have h1 : i % 1 = 0 := Nat.mod_one i
  have h2 : i / 1 = i := Nat.div_one i
  have h3 : i % (max 1 n) = i := Nat.mod_eq_of_lt (lt_of_lt_of_le hi (le_max_right 1 n))
  rw [Prod.mk.injEq]
  constructor
  · rw [h1]
    push_cast
    ring
  · rw [h2, h3]
    push_cast
    ring

/-- For a singleton bucket the single-column single-row candidate always
survives whenever anything survives. -/
theorem candidates_one_mem {w h : ℚ} (hne : candidates w h 1 ≠ []) :
    (⟨1, 1, min (usableW w h) (usableH w h)⟩ : Cand) ∈ candidates w h 1 := by
  have hu := usable_ge_of_accepted hne
  have hmm := candidates_complete (w := w) (h := h) (n := 1) (c := 1)
    le_rfl (le_max_left _ _)
    (by rw [rowsFor_one]; exact le_max_left _ _)
    (by rw [axisPitch_one]; exact hu.1)
    (by rw [rowsFor_one, axisPitch_one]; exact hu.2)
  rw [rowsFor_one, axisPitch_one, axisPitch_one] at hmm
  exact hmm

/-- For a singleton bucket the head of the surviving-candidate list is the
single-column single-row candidate. -/
theorem head_of_candidates_one {w h : ℚ} {c0 : Cand} {t : List Cand}
    (hcs : candidates w h 1 = c0 :: t) :
    c0 = ⟨1, 1, min (usableW w h) (usableH w h)⟩ := by
  have hne : candidates w h 1 ≠ [] := by rw [hcs]; simp
  have hmem := candidates_one_mem hne
  rw [hcs] at hmem
  rcases List.mem_cons.mp hmem with heq | hmem2
  · exact heq.symm
  · exfalso
    have hpw := candidates_cols_ascending w h 1
    rw [hcs, List.pairwise_cons] at hpw
    have hlt := hpw.1 _ hmem2
    have hc0 : 1 ≤ c0.cols :=
      (candidates_sound (by rw [hcs]; exact List.mem_cons_self c0 t)).1
    dsimp only at hlt
    omega

/-- Every surviving candidate of a singleton bucket has pitch at most
`min usableW usableH`. -/
theorem candidates_one_pitch_le {w h : ℚ} :
    ∀ c ∈ candidates w h 1, c.pitch ≤ min (usableW w h) (usableH w h) := by
  intro c hc
  obtain ⟨_, _, hcr, _, _, _, hcp⟩ := candidates_sound hc
  rw [hcp, hcr, rowsFor_one, axisPitch_one]
  exact min_le_min (axisPitch_le_span (usableW_nonneg w h) _) le_rfl

/-- A singleton bucket is always laid out as a `1 × 1` grid. -/
theorem bestGrid_one (w h : ℚ) :
    (bestGrid w h 1).cols = 1 ∧ (bestGrid w h 1).rows = 1 := by
  rcases hb : bestCand w h 1 with _ | b
  · rw [bestGrid_of_none hb]
    exact ⟨rfl, by simp⟩
  · have hmem := bestCand_mem hb
    obtain ⟨_, _, hrows, _, _, _, _⟩ := candidates_sound hmem
    have hrows1 : b.rows = 1 := by rw [hrows, rowsFor_one]
    obtain ⟨pre, post, heq, hlt⟩ := bestCand_first hb
    cases pre with
    | nil =>
      rw [List.nil_append] at heq
      have hbeq := head_of_candidates_one heq
      rw [bestGrid_of_some hb, hbeq]
      exact ⟨rfl, rfl⟩
    | cons p pre2 =>
      exfalso
      rw [List.cons_append] at heq
      have hp := head_of_candidates_one heq
      have h1 : p.pitch < b.pitch := hlt p (List.mem_cons_self _ _)
      have h2 : b.pitch ≤ min (usableW w h) (usableH w h) :=
        candidates_one_pitch_le b hmem
      rw [hp] at h1
      dsimp only at h1
      linarith

/-- A singleton bucket receives exactly the offset `(0, 0)`. -/
theorem gridOffsets_one (w h : ℚ) : gridOffsets w h 1 = [((0 : ℚ), (0 : ℚ))] := by
  obtain ⟨hc, hr⟩ := bestGrid_one w h
  unfold gridOffsets
  rw [hc, hr]
  unfold positionsFor
  rw [show List.range 1 = [0] from rfl, List.map_cons, List.map_nil]
  norm_num

/-! ### Hexagonal strategy lemmas -/

theorem hexCols_pos (uW pX : ℚ) : 1 ≤ hexCols uW pX := le_max_left _ _

theorem hexRows_pos (uH pY : ℚ) : 1 ≤ hexRows uH pY := le_max_left _ _

theorem hexPositions_of_le_one {uW uH pX pY : ℚ} {n : ℕ} (hn : n ≤ 1) :
    hexPositions uW uH pX pY n = [(0, 0)] := by
  unfold hexPositions
  rw [if_pos hn]

theorem hexPositions_length (uW uH pX pY : ℚ) (n : ℕ) :
    (hexPositions uW uH pX pY n).length = max n 1 := by
  unfold hexPositions
  by_cases h1 : n ≤ 1
  · rw [if_pos h1]
    simp
    omega
  · rw [if_neg h1]
    simp only
    by_cases h2 : hexCols uW pX = 1 ∧ hexRows uH pY = 1
    · rw [if_pos h2, List.length_replicate]
      omega
    · rw [if_neg h2]
      have hcap : 1 ≤ hexRows uH pY * hexCols uW pX :=
        Nat.one_le_iff_ne_zero.mpr (Nat.mul_ne_zero
          (by have := hexRows_pos uH pY; omega)
          (by have := hexCols_pos uW pX; omega))
      rw [List.length_append, List.length_take, List.length_replicate,
        List.length_map, List.length_range]
      omega

theorem hexPositions_collapse (uW uH pX pY : ℚ) (n : ℕ)
    (hW : ⌊uW / pX⌋ ≤ 1) (hH : ⌊uH / pY⌋ ≤ 1) (hn : 2 ≤ n) :
    hexPositions uW uH pX pY n = List.replicate n (0, 0) := by
  have hc : hexCols uW pX = 1 := by
    unfold hexCols
    have : (⌊uW / pX⌋).toNat ≤ 1 := by omega
    omega
  have hr : hexRows uH pY = 1 := by
    unfold hexRows
    have : (⌊uH / pY⌋).toNat ≤ 1 := by omega
    omega
  unfold hexPositions
  rw [if_neg (by omega), if_pos ⟨hc, hr⟩]

theorem hexPositions_overflow (uW uH pX pY : ℚ) (n : ℕ)
    (hcap : hexRows uH pY * hexCols uW pX < n)
    (hnot : ¬(hexCols uW pX = 1 ∧ hexRows uH pY = 1)) :
    ∀ i, hexRows uH pY * hexCols uW pX ≤ i → i < n →
      (hexPositions uW uH pX pY n).get? i = (hexPositions uW uH pX pY n).get? 0 := by
  intro i hi hin
  have hcap1 : 1 ≤ hexRows uH pY * hexCols uW pX :=
    Nat.one_le_iff_ne_zero.mpr (Nat.mul_ne_zero
      (by have := hexRows_pos uH pY; omega)
      (by have := hexCols_pos uW pX; omega))
  have h2 : ¬ n ≤ 1 := by omega
  unfold hexPositions
  rw [if_neg h2, if_neg hnot]
  simp only
  set cap := hexRows uH pY * hexCols uW pX with hcapdef
  set lattice := (List.range cap).map (fun j =>
    (-(((hexCols uW pX : ℚ) - 1) * pX + (if 1 < hexCols uW pX then pX / 2 else 0)) / 2 +
       (if j / hexCols uW pX % 2 = 1 then pX / 2 else 0) +
       ((j % hexCols uW pX : ℕ) : ℚ) * pX,
     -(((hexRows uH pY : ℚ) - 1) * pY) / 2 + ((j / hexCols uW pX : ℕ) : ℚ) * pY))
    with hlat
  have hlen : lattice.length = cap := by
    rw [hlat, List.length_map, List.length_range]
  have htake : lattice.take n = lattice :=
    List.take_of_length_le (by omega)
  rw [htake]
  obtain ⟨x, rest, hx⟩ : ∃ x rest, lattice = x :: rest := by
    rcases hl : lattice with _ | ⟨x, rest⟩
    · rw [hl] at hlen
      simp at hlen
      omega
    · exact ⟨x, rest, rfl⟩
  rw [hx]
  have hhead : (x :: rest).headD (0, 0) = x := rfl
  rw [hhead]
  have hlen2 : (x :: rest).length = cap := by rw [← hx, hlen]
  rw [show x :: rest ++ List.replicate (n - cap) x = (x :: rest) ++ List.replicate (n - cap) x from rfl]
  have hz : ((x :: rest) ++ List.replicate (n - cap) x).get? 0 = some x := rfl
  rw [hz, List.get?_eq_getElem?, List.getElem?_append_right (by omega), List.getElem?_replicate,
    if_pos (by omega : i - (x :: rest).length < n - cap)]

/-! ### Grouping machinery -/

theorem mem_firstKeys {α : Type} [DecidableEq α] (a : α) (l : List α) :
    a ∈ firstKeys l ↔ a ∈ l := by
  induction l with
  | nil => simp [firstKeys]
  | cons b t ih =>
    unfold firstKeys
    constructor
    · intro hmem
      rcases List.mem_cons.mp hmem with rfl | hmem2
      · exact List.mem_cons_self _ _
      · have := (List.mem_filter.mp hmem2).1
        exact List.mem_cons_of_mem _ (ih.mp this)
    · intro hmem
      rcases List.mem_cons.mp hmem with rfl | hmem2
      · exact List.mem_cons_self _ _
      · by_cases hab : a = b
        · rw [hab]; exact List.mem_cons_self _ _
        · exact List.mem_cons_of_mem _
            (List.mem_filter.mpr ⟨ih.mpr hmem2, by simp [hab]⟩)

theorem firstKeys_nodup {α : Type} [DecidableEq α] (l : List α) :
    (firstKeys l).Nodup := by
  induction l with
  | nil => simp [firstKeys]
  | cons b t ih =>
    unfold firstKeys
    rw [List.nodup_cons]
    refine ⟨?_, ih.filter _⟩
    intro hmem
    have := (List.mem_filter.mp hmem).2
    simp at this

/-- Pointwise-equal functions give equal `flatMap`s. -/
theorem flatMap_congr_mem {α β : Type} {f g : α → List β} :
    ∀ l : List α, (∀ a ∈ l, f a = g a) → l.flatMap f = l.flatMap g := by
  intro l
  induction l with
  | nil => intro _; rfl
  | cons a t ih =>
    intro hfg
    rw [List.flatMap_cons, List.flatMap_cons, hfg a (List.mem_cons_self a t),
      ih (fun b hb => hfg b (List.mem_cons_of_mem a hb))]

/-- Splitting a list into its fibers over a duplicate-free covering key list is
a permutation of the list. -/
theorem flatMap_filter_perm {α K : Type} [DecidableEq K] (key : α → K) :
    ∀ (ks : List K) (l : List α), ks.Nodup → (∀ x ∈ l, key x ∈ ks) →
      (ks.flatMap (fun k => l.filter (fun x => decide (key x = k)))).Perm l := by
  intro ks
  induction ks with
  | nil =>
    intro l _ hcov
    have hl : l = [] := by
      cases l with
      | nil => rfl
      | cons a t => exact absurd (hcov a (List.mem_cons_self a t)) (by simp)
    rw [hl]
    simp
  | cons k ks ih =>
    intro l hnd hcov
    rw [List.flatMap_cons]
    have hnd2 := List.nodup_cons.mp hnd
    have hf : ∀ k2 ∈ ks, l.filter (fun x => decide (key x = k2)) =
        (l.filter (fun x => !decide (key x = k))).filter (fun x => decide (key x = k2)) := by
      intro k2 hk2
      rw [List.filter_filter]
      apply List.filter_congr
      intro x hx
      by_cases hxk : key x = k2
      · have hk2k : ¬ k2 = k := by
          intro hh
          exact hnd2.1 (hh ▸ hk2)
        simp [hxk, hk2k]
      · simp [hxk]
    rw [flatMap_congr_mem ks hf]
    have hcov2 : ∀ x ∈ l.filter (fun x => !decide (key x = k)), key x ∈ ks := by
      intro x hx
      obtain ⟨hxl, hxne⟩ := List.mem_filter.mp hx
      simp at hxne
      rcases List.mem_cons.mp (hcov x hxl) with hh | hh
      · exact absurd hh hxne
      · exact hh
    have hperm := ih (l.filter (fun x => !decide (key x = k))) hnd2.2 hcov2
    exact (hperm.append_left _).trans (List.filter_append_perm _ l)

/-- Index pairs in `1..5` always resolve both labels. -/
theorem labels_isSome_of_range {a b : ℤ}
    (h1 : 1 ≤ a) (h2 : a ≤ 5) (h3 : 1 ≤ b) (h4 : b ≤ 5) :
    (consequenceLabelFromIndex a).isSome ∧ (likelihoodLabelFromIndex b).isSome := by
  constructor
  · unfold consequenceLabelFromIndex
    rw [if_pos h1]
    have hlt : a.toNat - 1 < riskConsequenceLevels.length := by
      unfold riskConsequenceLevels
      simp only [List.length_cons, List.length_nil]
      omega
    rw [List.get?_eq_get hlt]
    rfl
  · unfold likelihoodLabelFromIndex
    rw [if_pos h3]
    have hlt : b.toNat - 1 < riskLikelihoodLevels.length := by
      unfold riskLikelihoodLevels
      simp only [List.length_cons, List.length_nil]
      omega
    rw [List.get?_eq_get hlt]
    rfl

/-- Mapping the `item` projection over the placed output of one refresh
flattens back to the grouped items, provided every bucket's labels resolve. -/
theorem mapItem_flatMap (w h : ℚ) (risks : List Risk) :
    ∀ ks : List (ℤ × ℤ),
      (∀ k ∈ ks, (consequenceLabelFromIndex k.1).isSome ∧
        (likelihoodLabelFromIndex k.2).isSome) →
      (((ks.map (fun k => (k, risks.filter (fun r => decide (riskKey r = k))))).flatMap
          (fun kg =>
            match consequenceLabelFromIndex kg.1.1, likelihoodLabelFromIndex kg.1.2 with
            | some cl, some ll =>
                (kg.2.zip (gridOffsets w h kg.2.length)).map (fun rp =>
                  (⟨rp.1, cl, ll, rp.2.1, rp.2.2, radius w h⟩ : Placed))
            | _, _ => [])).map Placed.item)
        = ks.flatMap (fun k => risks.filter (fun r => decide (riskKey r = k))) := by
  intro ks
  induction ks with
  | nil => intro _; rfl
  | cons k t ih =>
    intro hlab
    obtain ⟨h1, h2⟩ := hlab k (List.mem_cons_self k t)
    obtain ⟨cl, hcl⟩ := Option.isSome_iff_exists.mp h1
    obtain ⟨ll, hll⟩ := Option.isSome_iff_exists.mp h2
    rw [List.map_cons, List.flatMap_cons, List.map_append, List.flatMap_cons]
    rw [ih (fun k2 hk2 => hlab k2 (List.mem_cons_of_mem k hk2))]
    congr 1
    simp only [hcl, hll]
    rw [List.map_map]
    have hcomp : (Placed.item ∘ fun rp : Risk × (ℚ × ℚ) =>
        (⟨rp.1, cl, ll, rp.2.1, rp.2.2, radius w h⟩ : Placed)) = Prod.fst := rfl
    rw [hcomp]
    exact List.map_fst_zip _ _ (le_of_eq (gridOffsets_length w h _).symm)

/-- Under the `1..5` precondition the placed list is, item for item, a
permutation of the input risks: nothing is dropped and nothing is invented. -/
theorem calculateJitter_items_perm {w h : ℚ} {risks : List Risk}
    (hrange : ∀ r ∈ risks, 1 ≤ r.consequenceIdx ∧ r.consequenceIdx ≤ 5 ∧
      1 ≤ r.likelihoodIdx ∧ r.likelihoodIdx ≤ 5) :
    ((calculateJitter w h risks).map Placed.item).Perm risks := by
  have hlab : ∀ k ∈ firstKeys (risks.map riskKey),
      (consequenceLabelFromIndex k.1).isSome ∧
      (likelihoodLabelFromIndex k.2).isSome := by
    intro k hk
    rw [mem_firstKeys, List.mem_map] at hk
    obtain ⟨r, hr, hkr⟩ := hk
    obtain ⟨a1, a2, a3, a4⟩ := hrange r hr
    rw [← hkr]
    exact labels_isSome_of_range a1 a2 a3 a4
  unfold calculateJitter groupsOf
  rw [mapItem_flatMap w h risks _ hlab]
  exact flatMap_filter_perm riskKey _ risks (firstKeys_nodup _)
    (fun x hx => (mem_firstKeys _ _).mpr (List.mem_map_of_mem riskKey hx))

/-- Achievable pitch for two or more markers is the span over `count - 1`. -/
theorem axisPitch_of_two_le (span : ℚ) {c : ℕ} (hc : 2 ≤ c) :
    axisPitch span c = span / ((c : ℚ) - 1) := by
  unfold axisPitch
  rw [if_neg (by omega)]

/-- The achievable pitch across a span of zero is zero. -/
theorem axisPitch_zero (c : ℕ) : axisPitch 0 c = 0 := by
  unfold axisPitch
  split
  · rfl
  · exact zero_div _

/-! ### Claim theorems -/

/-- C1 (counterexample): the hexagonal strategy applied to an empty bucket
returns one offset `(0,0)`, not an empty list — `hexPositions` pushes `(0,0)`
whenever `n ≤ 1`, including `n = 0`. -/
theorem hexPositions_empty_bucket_not_empty :
    hexPositions 1 1 1 1 0 = [(0, 0)] ∧ (hexPositions 1 1 1 1 0).length ≠ 0 := by
  refine ⟨hexPositions_of_le_one (by norm_num), ?_⟩
  rw [hexPositions_of_le_one (by norm_num)]
  simp

/-- C1 (amended): for every non-negative cell size the grid strategy returns
exactly `n` offsets, with `n = 0` giving the empty list and `n = 1` giving the
single offset `(0,0)`; the hexagonal strategy returns `max n 1` offsets — that
is, exactly `n` for every `n ≥ 1` (with `n = 1` giving `(0,0)`), but a single
`(0,0)` offset rather than an empty list for `n = 0`. -/
theorem pack_output_length_amended (w h : ℚ) (_hw : 0 ≤ w) (_hh : 0 ≤ h) :
    (∀ n : ℕ, (gridOffsets w h n).length = n) ∧
    gridOffsets w h 0 = [] ∧
    gridOffsets w h 1 = [(0, 0)] ∧
    (∀ uW uH pX pY : ℚ, ∀ n : ℕ,
      (hexPositions uW uH pX pY n).length = max n 1) ∧
    (∀ uW uH pX pY : ℚ, hexPositions uW uH pX pY 1 = [(0, 0)]) := by
  exact ⟨gridOffsets_length w h, gridOffsets_zero w h, gridOffsets_one w h,
    fun uW uH pX pY n => hexPositions_length uW uH pX pY n,
    fun uW uH pX pY => hexPositions_of_le_one le_rfl⟩

/-- C1 (witness): the amended claim evaluated at a concrete `100 × 100` cell
and concrete hex parameters. -/
theorem pack_output_length_amended_witness :
    (0 : ℚ) ≤ 100 ∧ (gridOffsets 100 100 5).length = 5 ∧
    gridOffsets 100 100 1 = [(0, 0)] ∧ hexPositions 3 3 2 2 1 = [(0, 0)] := by
  have hmain := pack_output_length_amended 100 100 (by norm_num) (by norm_num)
  exact ⟨by norm_num, hmain.1 5, hmain.2.2.1, hmain.2.2.2.2 3 3 2 2⟩

/-- C2 (counterexample): in a `100 × 100` cell with two items the search
accepts a grid, yet the marker centered at `(0, 30)` with radius `10` extends
to `y = 40`, outside the usable interior whose half-height is `30` — the full
marker does not stay within the cell's usable interior. -/
theorem grid_marker_exits_usable_interior :
    candidates 100 100 2 ≠ [] ∧
    gridOffsets 100 100 2 = [(0, -30), (0, 30)] ∧
    radius 100 100 = 10 ∧ usableH 100 100 = 60 ∧
    ¬ (|(30 : ℚ)| + 10 ≤ 60 / 2) := by
  refine ⟨?_, by with_unfolding_all rfl, by with_unfolding_all rfl,
    by with_unfolding_all rfl, by norm_num⟩
  rw [show candidates 100 100 2 = [⟨1, 2, 60⟩, ⟨2, 1, 60⟩, ⟨3, 1, 30⟩] from by
    with_unfolding_all rfl]
  simp

/-- C2 (amended): whenever the candidate search accepts some grid (no degraded
fallback), every pair of distinct returned offsets is at least `2 * radius`
apart, and every offset keeps the marker's CENTER within the cell's usable
interior; the full marker stays within the cell (it may extend into the inner
padding ring by up to one radius, but never crosses the cell border). -/
theorem grid_accepted_separation_and_containment (w h : ℚ) (n : ℕ)
    (hne : candidates w h n ≠ []) :
    (∀ p ∈ gridOffsets w h n, ∀ q ∈ gridOffsets w h n,
      p ≠ q → (2 * radius w h) ^ 2 ≤ sqDist p q) ∧
    (∀ p ∈ gridOffsets w h n,
      |p.1| ≤ usableW w h / 2 ∧ |p.2| ≤ usableH w h / 2 ∧
      |p.1| + radius w h ≤ cellW w / 2 ∧ |p.2| + radius w h ≤ cellH h / 2) :=
  ⟨gridOffsets_sep w h n, gridOffsets_in_bounds hne⟩

/-- C2 (witness): the amended claim at the concrete accepted `100 × 100` cell
with two items, evaluated at its two concrete offsets. -/
theorem grid_accepted_separation_and_containment_witness :
    (2 * radius 100 100) ^ 2 ≤ sqDist (0, -30) (0, 30) ∧
    |((0 : ℚ), (30 : ℚ)).1| ≤ usableW 100 100 / 2 ∧
    |((0 : ℚ), (30 : ℚ)).2| + radius 100 100 ≤ cellH 100 / 2 := by
  have hlist : gridOffsets 100 100 2 = [(0, -30), (0, 30)] := by
    with_unfolding_all rfl
  have hne : candidates 100 100 2 ≠ [] := by
    rw [show candidates 100 100 2 = [⟨1, 2, 60⟩, ⟨2, 1, 60⟩, ⟨3, 1, 30⟩] from by
      with_unfolding_all rfl]
    simp
  have hmain := grid_accepted_separation_and_containment 100 100 2 hne
  have hm1 : ((0 : ℚ), (-30 : ℚ)) ∈ gridOffsets 100 100 2 := by rw [hlist]; simp
  have hm2 : ((0 : ℚ), (30 : ℚ)) ∈ gridOffsets 100 100 2 := by rw [hlist]; simp
  have hb := hmain.2 _ hm2
  exact ⟨hmain.1 _ hm1 _ hm2 (by norm_num), hb.1, hb.2.2.2⟩

/-- C3 (confirmed): the candidate search is exactly as specified — every
surviving candidate for column count `c` has `rows = max(1, ceil(n/c))`, both
axis pitches (full span for a count of one, `span / (count - 1)` otherwise) at
least `2 * radius`, and score equal to the minimum of the two axis pitches;
every column count in range meeting those conditions survives, listed in
ascending column order; and the chosen candidate is a maximizer of the score
whose strict predecessors in the list all score strictly less (the
first-found tie-break of the stable descending sort). -/
theorem grid_candidate_search_spec (w h : ℚ) (n : ℕ) :
    (∀ cand ∈ candidates w h n,
      1 ≤ cand.cols ∧ cand.cols ≤ maxColsTry w h n ∧
      cand.rows = rowsFor n cand.cols ∧
      cand.rows ≤ hardRows w h ∧
      2 * radius w h ≤ axisPitch (usableW w h) cand.cols ∧
      2 * radius w h ≤ axisPitch (usableH w h) cand.rows ∧
      cand.pitch = min (axisPitch (usableW w h) cand.cols)
        (axisPitch (usableH w h) cand.rows)) ∧
    (∀ span : ℚ, axisPitch span 1 = span) ∧
    (∀ span : ℚ, ∀ c : ℕ, 2 ≤ c → axisPitch span c = span / ((c : ℚ) - 1)) ∧
    (candidates w h n).Pairwise (fun a b => a.cols < b.cols) ∧
    (∀ c : ℕ, 1 ≤ c → c ≤ maxColsTry w h n → rowsFor n c ≤ hardRows w h →
      2 * radius w h ≤ axisPitch (usableW w h) c →
      2 * radius w h ≤ axisPitch (usableH w h) (rowsFor n c) →
      (⟨c, rowsFor n c, min (axisPitch (usableW w h) c)
        (axisPitch (usableH w h) (rowsFor n c))⟩ : Cand) ∈ candidates w h n) ∧
    (∀ best : Cand, bestCand w h n = some best →
      best ∈ candidates w h n ∧
      (∀ c ∈ candidates w h n, c.pitch ≤ best.pitch) ∧
      ∃ pre post, candidates w h n = pre ++ best :: post ∧
        ∀ c ∈ pre, c.pitch < best.pitch) := by
  refine ⟨fun cand hc => candidates_sound hc,
    axisPitch_one,
    fun span c hc => axisPitch_of_two_le span hc,
    candidates_cols_ascending w h n,
    fun c h1 h2 h3 h4 h5 => candidates_complete h1 h2 h3 h4 h5,
    fun best hb => ⟨bestCand_mem hb, bestCand_max hb, bestCand_first hb⟩⟩

/-- C3 (witness): the search at a `100 × 100` cell with a bucket of two — the
surviving candidates are columns 1, 2, 3; the chosen candidate is the first
maximizer `{cols 1, rows 2, pitch 60}`, and the later tied candidate
`{cols 2, rows 1, pitch 60}` does not displace it. -/
theorem grid_candidate_search_spec_witness :
    (⟨2, 1, 60⟩ : Cand) ∈ candidates 100 100 2 ∧
    bestCand 100 100 2 = some ⟨1, 2, 60⟩ ∧
    (⟨1, 2, 60⟩ : Cand) ∈ candidates 100 100 2 ∧
    Cand.pitch ⟨2, 1, 60⟩ ≤ Cand.pitch ⟨1, 2, 60⟩ := by
  have hlist : candidates 100 100 2 = [⟨1, 2, 60⟩, ⟨2, 1, 60⟩, ⟨3, 1, 30⟩] := by
    with_unfolding_all rfl
  have hb : bestCand 100 100 2 = some ⟨1, 2, 60⟩ := by with_unfolding_all rfl
  have hmem2 : (⟨2, 1, 60⟩ : Cand) ∈ candidates 100 100 2 := by rw [hlist]; simp
  have hsel := (grid_candidate_search_spec 100 100 2).2.2.2.2.2 ⟨1, 2, 60⟩ hb
  exact ⟨hmem2, hb, hsel.1, hsel.2.1 _ hmem2⟩

/-- C4 (confirmed): when no candidate survives, the grid strategy degrades to
a single-column stack of all `n` items (x-offset zero, y-offsets in row order)
at the floor pitch `2 * radius`, still of length exactly `n` — no item is
dropped and nothing fails. -/
theorem grid_fallback_single_column_stack (w h : ℚ) (n : ℕ)
    (hno : candidates w h n = []) :
    gridOffsets w h n = (List.range n).map
      (fun i : ℕ => ((0 : ℚ),
        ((i : ℚ) - (((max 1 n : ℕ) : ℚ) - 1) / 2) * (2 * radius w h))) ∧
    (gridOffsets w h n).length = n :=
  ⟨gridOffsets_fallback hno, gridOffsets_length w h n⟩

/-- C4 (witness): 50 items forced into a `40 × 40` cell: no candidate
survives, and the degraded result still has exactly 50 offsets. -/
theorem grid_fallback_single_column_stack_witness :
    candidates 40 40 50 = [] ∧ (gridOffsets 40 40 50).length = 50 := by
  have hno : candidates 40 40 50 = [] := by with_unfolding_all rfl
  exact ⟨hno, (grid_fallback_single_column_stack 40 40 50 hno).2⟩

/-- C5 (counterexample): with usable spans `24 × 14`, pitches `10.8` and
`7.9`, the lattice holds `2` positions; packing `4` items, item `3`
(= capacity + 1) receives the FIRST computed position `(-8.1, 0)` rather than
the `(1 mod 2)`-th position `(2.7, 0)` claimed by the cyclic-reuse rule. -/
theorem hex_overflow_not_cyclic :
    hexRows 14 (79 / 10) * hexCols 24 (54 / 5) = 2 ∧
    hexPositions 24 14 (54 / 5) (79 / 10) 4 =
      [(-(81 / 10), 0), (27 / 10, 0), (-(81 / 10), 0), (-(81 / 10), 0)] ∧
    ((-(81 / 10) : ℚ), (0 : ℚ)) ≠ ((27 / 10 : ℚ), (0 : ℚ)) := by
  refine ⟨by with_unfolding_all rfl, by with_unfolding_all rfl, ?_⟩
  intro hcon
  have := congrArg Prod.fst hcon
  norm_num at this

/-- C5 (amended): when the bucket size exceeds the lattice capacity
`rows * cols`, every overflow item deterministically reuses the FIRST computed
lattice position (the overflow loop's index `placed % pos.length` is always
`0` because the array grows as it is read), rather than cycling through the
computed positions. -/
theorem hex_overflow_repeats_first (uW uH pX pY : ℚ) (n : ℕ)
    (hcap : hexRows uH pY * hexCols uW pX < n)
    (hnot : ¬(hexCols uW pX = 1 ∧ hexRows uH pY = 1)) :
    ∀ i, hexRows uH pY * hexCols uW pX ≤ i → i < n →
      (hexPositions uW uH pX pY n).get? i = (hexPositions uW uH pX pY n).get? 0 :=
  hexPositions_overflow uW uH pX pY n hcap hnot

/-- C5 (witness): the amended claim at the concrete overflowing input — item 3
holds the same offset as item 0. -/
theorem hex_overflow_repeats_first_witness :
    (hexPositions 24 14 (54 / 5) (79 / 10) 4).get? 3 =
      (hexPositions 24 14 (54 / 5) (79 / 10) 4).get? 0 := by
  have hrc : hexRows 14 (79 / 10) * hexCols 24 (54 / 5) = 2 := by
    with_unfolding_all rfl
  have hcols : hexCols 24 (54 / 5) = 2 := by with_unfolding_all rfl
  refine hex_overflow_repeats_first 24 14 (54 / 5) (79 / 10) 4
    (by rw [hrc]; norm_num) ?_ 3 (by rw [hrc]; norm_num) (by norm_num)
  rw [hcols]
  simp

/-- C6 (counterexample): `clampIndex` coerces with `Number` only, so the
category-name string `"Moderate"` is excluded (`Number("Moderate")` is `NaN`)
while the numeric `3` yields index 3 — they do not normalize alike. -/
theorem clampIndex_moderate_excluded :
    clampIndex (JSVal.str "Moderate") = none ∧
    clampIndex (JSVal.num 3) = some 3 ∧
    clampIndex (JSVal.str "Moderate") ≠ clampIndex (JSVal.num 3) := by
  refine ⟨by with_unfolding_all rfl, by with_unfolding_all rfl, ?_⟩
  rw [show clampIndex (JSVal.str "Moderate") = none from by with_unfolding_all rfl,
    show clampIndex (JSVal.num 3) = some 3 from by with_unfolding_all rfl]
  simp

/-- C6 (amended): rating normalization floors and range-checks the `Number`
coercion of its input; strings are accepted only when they parse as decimal
numerals.  There is no case-insensitive matching against the category name
lists, so `"Moderate"` is excluded exactly like `0`, `6` and `"nonsense"`,
while numeric `3`, the numeric string `"3"` and the floored `3.5` all
normalize to index 3. -/
theorem clampIndex_numeric_only :
    clampIndex (JSVal.num 3) = some 3 ∧
    clampIndex (JSVal.str "3") = some 3 ∧
    clampIndex (JSVal.num (7 / 2)) = some 3 ∧
    clampIndex (JSVal.num 0) = none ∧
    clampIndex (JSVal.num 6) = none ∧
    clampIndex (JSVal.str "nonsense") = none ∧
    clampIndex (JSVal.str "Moderate") = none ∧
    extractRatings [(JSVal.num 3, JSVal.str "3"), (JSVal.str "Moderate", JSVal.num 2),
      (JSVal.num 0, JSVal.num 3), (JSVal.num 6, JSVal.num 3),
      (JSVal.str "nonsense", JSVal.num 3)] = [(3, 3)] ∧
    ∀ q : ℚ, clampIndex (JSVal.num q) =
      if ⌊q⌋ < 1 ∨ 5 < ⌊q⌋ then none else some ⌊q⌋ := by
  refine ⟨by with_unfolding_all rfl, by with_unfolding_all rfl,
    by with_unfolding_all rfl, by with_unfolding_all rfl,
    by with_unfolding_all rfl, by with_unfolding_all rfl,
    by with_unfolding_all rfl, by with_unfolding_all rfl, ?_⟩
  intro q
  rfl

/-- C7 (counterexample): widening the cell from `100 × 200` to `150 × 200`
with a fixed bucket of two DECREASES the minimum pairwise distance from 160 to
140 — the larger width raises the radius, hence the inner padding, shrinking
the usable height that separates the two stacked markers. -/
theorem grid_wider_cell_decreases_separation :
    gridOffsets 100 200 2 = [(0, -80), (0, 80)] ∧
    gridOffsets 150 200 2 = [(0, -70), (0, 70)] ∧
    (100 : ℚ) < 150 ∧
    sqDist ((0 : ℚ), (-70 : ℚ)) (0, 70) < sqDist ((0 : ℚ), (-80 : ℚ)) (0, 80) := by
  refine ⟨by with_unfolding_all rfl, by with_unfolding_all rfl, by norm_num, ?_⟩
  unfold sqDist
  norm_num

/-- Radius is monotone in the cell width. -/
theorem radius_mono_w {w wb h : ℚ} (hw : w ≤ wb) : radius w h ≤ radius wb h := by
  unfold radius cellW cellH
  have h2 : min (max 1 w) (max 1 h) ≤ min (max 1 wb) (max 1 h) :=
    min_le_min (max_le_max le_rfl hw) le_rfl
  have h3 : min (max 1 w) (max 1 h) * RADIUS_FACTOR ≤
      min (max 1 wb) (max 1 h) * RADIUS_FACTOR := by
    apply mul_le_mul_of_nonneg_right h2
    unfold RADIUS_FACTOR
    norm_num
  exact max_le_max le_rfl h3

/-- Radius is monotone in the cell height. -/
theorem radius_mono_h {w h hb : ℚ} (hh : h ≤ hb) : radius w h ≤ radius w hb := by
  unfold radius cellW cellH
  have h2 : min (max 1 w) (max 1 h) ≤ min (max 1 w) (max 1 hb) :=
    min_le_min le_rfl (max_le_max le_rfl hh)
  have h3 : min (max 1 w) (max 1 h) * RADIUS_FACTOR ≤
      min (max 1 w) (max 1 hb) * RADIUS_FACTOR := by
    apply mul_le_mul_of_nonneg_right h2
    unfold RADIUS_FACTOR
    norm_num
  exact max_le_max le_rfl h3

/-- C7 (amended): what growing the cell does preserve is the no-overlap
floor — in every cell (fallback included) distinct offsets stay at least
`2 * radius` apart, and the radius itself (hence that floor) never decreases
when the cell width or height increases.  The achieved minimum pairwise
distance itself is NOT monotone (see the counterexample). -/
theorem grid_separation_floor_and_radius_monotone :
    (∀ w h : ℚ, ∀ n : ℕ, ∀ p ∈ gridOffsets w h n, ∀ q ∈ gridOffsets w h n,
      p ≠ q → (2 * radius w h) ^ 2 ≤ sqDist p q) ∧
    (∀ w wb h : ℚ, w ≤ wb → radius w h ≤ radius wb h) ∧
    (∀ w h hb : ℚ, h ≤ hb → radius w h ≤ radius w hb) :=
  ⟨fun w h n => gridOffsets_sep w h n,
   fun _ _ _ hw => radius_mono_w hw,
   fun _ _ _ hh => radius_mono_h hh⟩

/-- C7 (witness): the amended claim at concrete cells — the two offsets of the
`100 × 100` cell respect the floor, and widening `100 → 150` at height 200
does not decrease the radius. -/
theorem grid_separation_floor_and_radius_monotone_witness :
    (2 * radius 100 100) ^ 2 ≤ sqDist (0, -30) (0, 30) ∧
    radius 100 200 ≤ radius 150 200 := by
  have hlist : gridOffsets 100 100 2 = [(0, -30), (0, 30)] := by
    with_unfolding_all rfl
  have hmain := grid_separation_floor_and_radius_monotone
  refine ⟨hmain.1 100 100 2 _ ?_ _ ?_ (by norm_num),
    hmain.2.1 100 150 200 (by norm_num)⟩
  · rw [hlist]; simp
  · rw [hlist]; simp

/-- C8 (counterexample): on a degenerate zero-size cell the GRID strategy does
not collapse all offsets to `(0,0)`: two items come back as a vertical stack
`(0, -4), (0, 4)` spaced by `2 * radius = 8`. -/
theorem grid_zero_cell_not_all_origin :
    gridOffsets 0 0 2 = [(0, -4), (0, 4)] ∧
    ((0 : ℚ), (4 : ℚ)) ≠ ((0 : ℚ), (0 : ℚ)) := by
  refine ⟨by with_unfolding_all rfl, ?_⟩
  intro hcon
  have := congrArg Prod.snd hcon
  norm_num at this

/-- C8 (amended): both strategies are total on zero-size cells and the radius
takes its floor value 4; the HEX offsets all collapse to `(0,0)`, but the GRID
strategy instead produces its degraded single-column stack with x-offset zero
and y-offsets at pitch `2 * radius = 8` — all offsets equal `(0,0)` only for
`n ≤ 1`. -/
theorem zero_cell_amended (n : ℕ) (pY : ℚ) (hn : 1 ≤ n) :
    radius 0 0 = 4 ∧ hexRadius 0 0 = 4 ∧
    hexFromCell 0 0 pY n = List.replicate n (0, 0) ∧
    (gridOffsets 0 0 n).length = n ∧
    gridOffsets 0 0 n = (List.range n).map
      (fun i : ℕ => ((0 : ℚ), ((i : ℚ) - ((n : ℚ) - 1) / 2) * 8)) := by
  have hr : radius 0 0 = 4 := by with_unfolding_all rfl
  have hxr : hexRadius 0 0 = 4 := by with_unfolding_all rfl
  have hW : usableW 0 0 = 0 := by with_unfolding_all rfl
  have hxW : hexUsableW 0 0 = 0 := by with_unfolding_all rfl
  have hxH : hexUsableH 0 0 = 0 := by with_unfolding_all rfl
  have hcand : candidates 0 0 n = [] := by
    by_contra hne
    obtain ⟨c, hc⟩ := List.exists_mem_of_ne_nil _ hne
    have hs := (candidates_sound hc).2.2.2.2.1
    rw [hW, axisPitch_zero, hr] at hs
    norm_num at hs
  refine ⟨hr, hxr, ?_, gridOffsets_length 0 0 n, ?_⟩
  · unfold hexFromCell
    rw [hxW, hxH]
    rcases eq_or_lt_of_le hn with h1 | h2
    · rw [← h1, hexPositions_of_le_one le_rfl]
      rfl
    · exact hexPositions_collapse _ _ _ _ n
        (by rw [zero_div, Int.floor_zero]; norm_num)
        (by rw [zero_div, Int.floor_zero]; norm_num) h2
  · rw [gridOffsets_fallback hcand]
    apply List.map_congr_left
    intro i hi
    rw [hr, max_eq_right hn]
    rw [Prod.mk.injEq]
    refine ⟨rfl, by ring⟩

/-- C8 (witness): the amended claim at `n = 2`: radius floored at 4, hex
offsets both `(0,0)`, grid output of length 2. -/
theorem zero_cell_amended_witness :
    radius 0 0 = 4 ∧ hexFromCell 0 0 1 2 = List.replicate 2 (0, 0) ∧
    (gridOffsets 0 0 2).length = 2 := by
  have hmain := zero_cell_amended 2 1 (by norm_num)
  exact ⟨hmain.1, hmain.2.2.1, hmain.2.2.2.1⟩

/-- C9 (confirmed): for any risk list whose indices all lie in `1..5`,
`calculateJitter` is total and lossless — the placed list's underlying items
are a permutation of the input (exactly one positioned entry per item), its
length equals the input length, and the null-label skip branch is unreachable
because every occurring group key resolves both labels. -/
theorem calculateJitter_total_and_complete (w h : ℚ) (risks : List Risk)
    (hrange : ∀ r ∈ risks, 1 ≤ r.consequenceIdx ∧ r.consequenceIdx ≤ 5 ∧
      1 ≤ r.likelihoodIdx ∧ r.likelihoodIdx ≤ 5) :
    ((calculateJitter w h risks).map Placed.item).Perm risks ∧
    (calculateJitter w h risks).length = risks.length ∧
    ∀ k ∈ firstKeys (risks.map riskKey),
      (consequenceLabelFromIndex k.1).isSome ∧
      (likelihoodLabelFromIndex k.2).isSome := by
  have hperm := calculateJitter_items_perm (w := w) (h := h) hrange
  refine ⟨hperm, ?_, ?_⟩
  · have hlen := hperm.length_eq
    rw [List.length_map] at hlen
    exact hlen
  · intro k hk
    rw [mem_firstKeys, List.mem_map] at hk
    obtain ⟨r, hr, hkr⟩ := hk
    obtain ⟨a1, a2, a3, a4⟩ := hrange r hr
    rw [← hkr]
    exact labels_isSome_of_range a1 a2 a3 a4

/-- C9 (witness): three valid risks (two sharing a cell) are all placed. -/
theorem calculateJitter_total_and_complete_witness :
    (calculateJitter 100 100 [⟨3, 2, 0⟩, ⟨3, 2, 1⟩, ⟨1, 5, 2⟩]).length = 3 :=
  (calculateJitter_total_and_complete 100 100
    [⟨3, 2, 0⟩, ⟨3, 2, 1⟩, ⟨1, 5, 2⟩] (by decide)).2.1

/-- C10 (confirmed): in the hexagonal strategy, when the usable area fits only
one column and one row (`floor(usableW/pitchX) ≤ 1` and
`floor(usableH/pitchY) ≤ 1`), every bucket of `n ≥ 2` items is placed entirely
at `(0,0)` — a fully coincident pile, not a spaced stack. -/
theorem hex_single_slot_coincident_pile (uW uH pX pY : ℚ) (n : ℕ)
    (hW : ⌊uW / pX⌋ ≤ 1) (hH : ⌊uH / pY⌋ ≤ 1) (hn : 2 ≤ n) :
    hexPositions uW uH pX pY n = List.replicate n (0, 0) :=
  hexPositions_collapse uW uH pX pY n hW hH hn

/-- C10 (witness): three items in a `5 × 5` usable area with pitches 10. -/
theorem hex_single_slot_coincident_pile_witness :
    hexPositions 5 5 10 10 3 = List.replicate 3 (0, 0) := by
  have hf : ⌊(5 : ℚ) / 10⌋ = 0 := by
    norm_num [Int.floor_eq_iff]
  exact hex_single_slot_coincident_pile 5 5 10 10 3
    (by rw [hf]; norm_num) (by rw [hf]; norm_num) (by norm_num)
